import Mathlib

/-!
A shallow embedding of the singly linked list implementation in
`src/src/singly_linked_list.c` (the second revision, `src/src/linked_list.c`,
is textually identical in every function it contains; it lacks only
`delete_node_by_data`).

Modelling conventions:
* A C pointer to a node is modelled as an address (`Nat`); the heap of
  allocated nodes is a function `Nat → Option (Node V)` (`none` = unallocated
  or freed memory).  `malloc` hands out the address `next_alloc`, a counter
  stored in the list state, and bumps it.
* The C `NodeData` is `void *`; it is modelled as `Option V`, where `none` is
  the NULL pointer.
* `malloc` failure is modelled by an explicit `alloc_ok : Bool` argument to
  the operations that allocate (`false` makes the allocation in that call
  fail, mirroring the `node == NULL` check in `create_node`).
* The `print_data_function` and `free_data_function` callbacks have no
  observable behaviour other than being invoked, so operations that call them
  return the trace of values they were invoked on, in call order.  The
  `compare_data_function` callback is stored in the list structure.
* Every C loop is translated with an explicit fuel argument; a result of
  `none` at the outer level means the fuel ran out (the C loop would still be
  running) or the C code dereferenced an invalid pointer (undefined
  behaviour).  Callers pass `next_alloc` as fuel, which bounds the number of
  distinct allocated nodes.
* A C function that takes a possibly-NULL list pointer is modelled on
  `Option (SinglyLinkedList V)`; `none` is the NULL handle, for which the C
  code prints an error and leaves everything untouched.
-/

namespace CLinkedList

/-- The C `NodeData` (`void *`): `none` models a NULL data pointer. -/
abbrev NodeData (V : Type) := Option V

/-- The C `struct Node`: one value pointer and the address of the next node
(`none` models a NULL `next_node`). -/
structure Node (V : Type) where
  node_data : NodeData V
  next_node : Option Nat
  deriving Repr, DecidableEq

/-- The C `struct SinglyLinkedList` plus the allocator state: head and tail
node addresses (both nullable), the heap of allocated nodes, the next fresh
address, and the stored comparison callback. -/
structure SinglyLinkedList (V : Type) where
  heap : Nat → Option (Node V)
  head_node : Option Nat
  tail_node : Option Nat
  next_alloc : Nat
  compare_data_function : NodeData V → NodeData V → Bool

variable {V : Type}

/-- Write one heap cell (a pointer store, or a `free` when `n = none`). -/
def heapWrite (h : Nat → Option (Node V)) (a : Nat) (n : Option (Node V)) :
    Nat → Option (Node V) :=
  fun x => if x = a then n else h x

/-- C `is_valid_singly_linked_list`: just a NULL check on the handle. -/
def is_valid_singly_linked_list (singly_linked_list : Option (SinglyLinkedList V)) : Bool :=
  singly_linked_list.isSome

/-- C `create_singly_linked_list`: fails if any of the three callbacks is
NULL or if allocation fails; otherwise yields an empty list.  The print and
free callbacks are modelled by their presence alone (their invocations are
traced by the operations that call them). -/
def create_singly_linked_list (alloc_ok : Bool) (print_data_function : Option Unit)
    (free_data_function : Option Unit)
    (compare_data_function : Option (NodeData V → NodeData V → Bool)) :
    Option (SinglyLinkedList V) :=
  match print_data_function with
  | none => none
  | some _ =>
    match free_data_function with
    | none => none
    | some _ =>
      match compare_data_function with
      | none => none
      | some cmp =>
        if alloc_ok then
          some { heap := fun _ => none, head_node := none, tail_node := none,
                 next_alloc := 0, compare_data_function := cmp }
        else none

/-- C `create_node`: rejects a NULL value, then allocates a detached node
(`next_node = NULL`).  `alloc_ok = false` models a failing `malloc`. -/
def create_node (alloc_ok : Bool) (node_data : NodeData V) : Option (Node V) :=
  match node_data with
  | none => none
  | some _ => if alloc_ok then some { node_data := node_data, next_node := none } else none

/-- Body of C `insert_node_at_head` after the validity check: on an empty
list the new node becomes head and tail, otherwise it is linked before the
current head and becomes the new head. -/
def insertHeadCore (alloc_ok : Bool) (s : SinglyLinkedList V) (node_data : NodeData V) :
    SinglyLinkedList V :=
  match create_node alloc_ok node_data with
  | none => s
  | some new_node =>
    match s.head_node with
    | none =>
      { s with heap := heapWrite s.heap s.next_alloc (some new_node),
               head_node := some s.next_alloc,
               tail_node := some s.next_alloc,
               next_alloc := s.next_alloc + 1 }
    | some h =>
      { s with heap := heapWrite s.heap s.next_alloc
                 (some { new_node with next_node := some h }),
               head_node := some s.next_alloc,
               next_alloc := s.next_alloc + 1 }

/-- C `insert_node_at_head`: NULL handle is a reported no-op. -/
def insert_node_at_head (alloc_ok : Bool) (l : Option (SinglyLinkedList V))
    (node_data : NodeData V) : Option (SinglyLinkedList V) :=
  match l with
  | none => none
  | some s => some (insertHeadCore alloc_ok s node_data)

/-- Body of C `insert_node_at_tail` after the validity check.  On an empty
list the new node becomes head and tail.  On a non-empty list the source
writes `tail_node->next_node = new_node` and — exactly as in the C — does
NOT advance `tail_node` to the new node.  A NULL or dangling `tail_node` at
that write is undefined behaviour in C, modelled by `none`. -/
def insertTailCore (alloc_ok : Bool) (s : SinglyLinkedList V) (node_data : NodeData V) :
    Option (SinglyLinkedList V) :=
  match create_node alloc_ok node_data with
  | none => some s
  | some new_node =>
    match s.head_node with
    | none =>
      some { s with heap := heapWrite s.heap s.next_alloc (some new_node),
                    head_node := some s.next_alloc,
                    tail_node := some s.next_alloc,
                    next_alloc := s.next_alloc + 1 }
    | some _ =>
      match s.tail_node with
      | none => none
      | some t =>
        match s.heap t with
        | none => none
        | some tn =>
          some { s with heap := heapWrite (heapWrite s.heap s.next_alloc (some new_node)) t
                          (some { tn with next_node := some s.next_alloc }),
                        next_alloc := s.next_alloc + 1 }

/-- C `insert_node_at_tail`: NULL handle is a reported no-op; the outer
`Option` is undefined behaviour inside the body. -/
def insert_node_at_tail (alloc_ok : Bool) (l : Option (SinglyLinkedList V))
    (node_data : NodeData V) : Option (Option (SinglyLinkedList V)) :=
  match l with
  | none => some none
  | some s => (insertTailCore alloc_ok s node_data).map some

/-- The loop of C `print_singly_linked_list`: walks from `cur`, collecting
the trace of values handed to `print_data_function`, in call order. -/
def printLoop (h : Nat → Option (Node V)) : Nat → Option Nat → Option (List (NodeData V))
  | _, none => some []
  | 0, some _ => none
  | fuel + 1, some a =>
    match h a with
    | none => none
    | some n => (printLoop h fuel n.next_node).map (fun vs => n.node_data :: vs)

/-- C `print_singly_linked_list`: returns the trace of printed values; a NULL
handle prints only an error (empty trace). -/
def print_singly_linked_list (l : Option (SinglyLinkedList V)) : Option (List (NodeData V)) :=
  match l with
  | none => some []
  | some s => printLoop s.heap s.next_alloc s.head_node

/-- The counting loop of C `get_linked_list_length`. -/
def lengthLoop (h : Nat → Option (Node V)) : Nat → Option Nat → Option Nat
  | _, none => some 0
  | 0, some _ => none
  | fuel + 1, some a =>
    match h a with
    | none => none
    | some n => (lengthLoop h fuel n.next_node).map (fun k => k + 1)

/-- C `get_linked_list_length`: 0 for a NULL handle or an empty list,
otherwise the number of nodes reached from the head. -/
def get_linked_list_length (l : Option (SinglyLinkedList V)) : Option Nat :=
  match l with
  | none => some 0
  | some s =>
    match s.head_node with
    | none => some 0
    | some _ => lengthLoop s.heap s.next_alloc s.head_node

/-- The loop of C `free_singly_linked_list`: reads each node's successor,
hands its value to `free_data_function` (traced), frees the node, and moves
on.  Returns the modified heap and the trace of released values. -/
def freeLoop (h : Nat → Option (Node V)) :
    Nat → Option Nat → Option ((Nat → Option (Node V)) × List (NodeData V))
  | _, none => some (h, [])
  | 0, some _ => none
  | fuel + 1, some a =>
    match h a with
    | none => none
    | some n =>
      match freeLoop (heapWrite h a none) fuel n.next_node with
      | none => none
      | some (h2, vs) => some (h2, n.node_data :: vs)

/-- C `free_singly_linked_list`: frees every node reachable from the head,
then sets `head_node` and `tail_node` to NULL.  Returns the new handle state
and the trace of values released via `free_data_function`. -/
def free_singly_linked_list (l : Option (SinglyLinkedList V)) :
    Option (Option (SinglyLinkedList V) × List (NodeData V)) :=
  match l with
  | none => some (none, [])
  | some s =>
    match freeLoop s.heap s.next_alloc s.head_node with
    | none => none
    | some (h2, vs) =>
      some (some { s with heap := h2, head_node := none, tail_node := none }, vs)

/-- The pointer-reversal loop of C `reverse_singly_linked_list`: arguments
are fuel, `previous_node` and `current_node`; returns the mutated heap and
the final `previous_node`. -/
def reverseLoop (h : Nat → Option (Node V)) :
    Nat → Option Nat → Option Nat → Option ((Nat → Option (Node V)) × Option Nat)
  | _, prev, none => some (h, prev)
  | 0, _, some _ => none
  | fuel + 1, prev, some a =>
    match h a with
    | none => none
    | some n =>
      reverseLoop (heapWrite h a (some { n with next_node := prev })) fuel (some a) n.next_node

/-- C `reverse_singly_linked_list`: a NULL handle or an empty list is a
reported no-op; otherwise every `next_node` link is reversed and `head_node`
is set to the final `previous_node`.  Exactly as in the C, `tail_node` is
not touched. -/
def reverse_singly_linked_list (l : Option (SinglyLinkedList V)) :
    Option (Option (SinglyLinkedList V)) :=
  match l with
  | none => some none
  | some s =>
    match s.head_node with
    | none => some (some s)
    | some _ =>
      match reverseLoop s.heap s.next_alloc none s.head_node with
      | none => none
      | some (h2, prev) => some (some { s with heap := h2, head_node := prev })

/-- The search loop of C `find_node_by_data`: returns `some (some a)` for the
first node whose data the comparator accepts, `some none` when the walk ends
without a match. -/
def findLoop (cmp : NodeData V → NodeData V → Bool) (h : Nat → Option (Node V))
    (node_data : NodeData V) : Nat → Option Nat → Option (Option Nat)
  | _, none => some none
  | 0, some _ => none
  | fuel + 1, some a =>
    match h a with
    | none => none
    | some n =>
      if cmp n.node_data node_data then some (some a)
      else findLoop cmp h node_data fuel n.next_node

/-- C `find_node_by_data`: NULL handle returns NULL (not found). -/
def find_node_by_data (l : Option (SinglyLinkedList V)) (node_data : NodeData V) :
    Option (Option Nat) :=
  match l with
  | none => some none
  | some s => findLoop s.compare_data_function s.heap node_data s.next_alloc s.head_node

/-- The loop of C `delete_node_by_data`.  Arguments: the searched value,
fuel, the list state, `previous_node`, `current_node`, the running count and
the trace of values released so far.  On a match the node is unlinked (head
and tail updated as in the source), its value released (traced), the node
freed, and the walk continues; otherwise `previous_node` advances. -/
def deleteLoop (node_data : NodeData V) :
    Nat → SinglyLinkedList V → Option Nat → Option Nat → Nat → List (NodeData V) →
    Option (SinglyLinkedList V × Nat × List (NodeData V))
  | _, s, _, none, count, trace => some (s, count, trace)
  | 0, _, _, some _, _, _ => none
  | fuel + 1, s, prev, some a, count, trace =>
    match s.heap a with
    | none => none
    | some n =>
      if s.compare_data_function n.node_data node_data then
        match prev with
        | none =>
          let s1 :=
            match n.next_node with
            | none => { s with head_node := n.next_node, tail_node := none }
            | some _ => { s with head_node := n.next_node }
          deleteLoop node_data fuel { s1 with heap := heapWrite s1.heap a none } prev
            n.next_node (count + 1) (trace ++ [n.node_data])
        | some p =>
          match s.heap p with
          | none => none
          | some pn =>
            let h1 := heapWrite s.heap p (some { pn with next_node := n.next_node })
            let s1 :=
              match n.next_node with
              | none => { s with heap := h1, tail_node := some p }
              | some _ => { s with heap := h1 }
            deleteLoop node_data fuel { s1 with heap := heapWrite s1.heap a none } prev
              n.next_node (count + 1) (trace ++ [n.node_data])
      else
        deleteLoop node_data fuel s (some a) n.next_node count trace

/-- C `delete_node_by_data` (only in `singly_linked_list.c`): removes every
node whose data the comparator accepts, returning the handle state, the count
of removed nodes and the trace of values released via `free_data_function`.
A NULL handle returns 0 with nothing touched. -/
def delete_node_by_data (l : Option (SinglyLinkedList V)) (node_data : NodeData V) :
    Option (Option (SinglyLinkedList V) × Nat × List (NodeData V)) :=
  match l with
  | none => some (none, 0, [])
  | some s =>
    match deleteLoop node_data s.next_alloc s none s.head_node 0 [] with
    | none => none
    | some (s2, count, trace) => some (some s2, count, trace)

/-! ### The chain predicate and the spec's valid-list invariants -/

/-- `IsChainSeg h start seg cont` says: starting at node address `start`, the
heap `h` holds the segment `seg` of (address, value) pairs, linked in order by
`next_node`, with the last node's `next_node` equal to `cont`. -/
inductive IsChainSeg (h : Nat → Option (Node V)) :
    Option Nat → List (Nat × NodeData V) → Option Nat → Prop
  | nil (cont : Option Nat) : IsChainSeg h cont [] cont
  | cons {a : Nat} {n : Node V} {seg : List (Nat × NodeData V)} {cont : Option Nat} :
      h a = some n → IsChainSeg h n.next_node seg cont →
      IsChainSeg h (some a) ((a, n.node_data) :: seg) cont

/-- A complete NULL-terminated chain from `cur`. -/
def IsChain (h : Nat → Option (Node V)) (cur : Option Nat) (c : List (Nat × NodeData V)) :
    Prop :=
  IsChainSeg h cur c none

/-- Every address at or above the allocation counter is unallocated. -/
def HeapBounded (h : Nat → Option (Node V)) (m : Nat) : Prop :=
  ∀ a, m ≤ a → h a = none

/-- The valid-list invariants of spec section 3: the heap holds the chain `c`
from the head, the tail reference is the address of the last chain element
(`none` when empty), and the allocator counter bounds the allocated heap. -/
def WF (s : SinglyLinkedList V) (c : List (Nat × NodeData V)) : Prop :=
  IsChain s.heap s.head_node c ∧
  s.tail_node = (c.map Prod.fst).getLast? ∧
  HeapBounded s.heap s.next_alloc

/-- The address of the first element of a chain, if any. -/
def chainHead (c : List (Nat × NodeData V)) : Option Nat :=
  c.head?.map Prod.fst

/-! ### Concrete states -/

/-- Equality comparison on boxed naturals (NULL never matches). -/
def natEq : NodeData Nat → NodeData Nat → Bool := fun x y => x == y

/-- A heap holding the three-node chain 0 → 1 → 2 with values 10, 20, 30. -/
def wfDemoHeap : Nat → Option (Node Nat) := fun a =>
  if a = 0 then some { node_data := some 10, next_node := some 1 }
  else if a = 1 then some { node_data := some 20, next_node := some 2 }
  else if a = 2 then some { node_data := some 30, next_node := none }
  else none

/-- A well-formed three-element list [10, 20, 30] (tail at the last node). -/
def wfDemo : SinglyLinkedList Nat :=
  { heap := wfDemoHeap, head_node := some 0, tail_node := some 2, next_alloc := 3,
    compare_data_function := natEq }

/-- The chain of `wfDemo`. -/
def wfDemoChain : List (Nat × NodeData Nat) := [(0, some 10), (1, some 20), (2, some 30)]

/-- A well-formed one-element list whose comparator accepts everything,
including a NULL search value. -/
def trueDemo : SinglyLinkedList Nat :=
  { heap := fun a => if a = 0 then some { node_data := some 7, next_node := none } else none,
    head_node := some 0, tail_node := some 0, next_alloc := 1,
    compare_data_function := fun _ _ => true }

/-- The chain of `trueDemo`. -/
def trueDemoChain : List (Nat × NodeData Nat) := [(0, some 7)]

/-- An empty, well-formed list. -/
def emptyDemo : SinglyLinkedList Nat :=
  { heap := fun _ => none, head_node := none, tail_node := none, next_alloc := 0,
    compare_data_function := natEq }

/-- `create_singly_linked_list` followed by `insert_node_at_tail` of 1, 2. -/
def tailDemo2 : Option (Option (SinglyLinkedList Nat)) := do
  let l1 ← insert_node_at_tail true
    (create_singly_linked_list true (some ()) (some ()) (some natEq)) (some 1)
  insert_node_at_tail true l1 (some 2)

/-- `tailDemo2` followed by `insert_node_at_tail` of 3. -/
def tailDemo3 : Option (Option (SinglyLinkedList Nat)) := do
  let l2 ← tailDemo2
  insert_node_at_tail true l2 (some 3)

/-! ### Chain lemmas -/

theorem IsChainSeg.nil_inv {h : Nat → Option (Node V)} {cur cont : Option Nat}
    (hc : IsChainSeg h cur ([] : List (Nat × NodeData V)) cont) : cur = cont := by
  cases hc
  rfl

theorem IsChainSeg.cons_inv {h : Nat → Option (Node V)} {cur cont : Option Nat}
    {a : Nat} {d : NodeData V} {seg : List (Nat × NodeData V)}
    (hc : IsChainSeg h cur ((a, d) :: seg) cont) :
    cur = some a ∧ ∃ n : Node V, h a = some n ∧ n.node_data = d ∧
      IsChainSeg h n.next_node seg cont := by
  cases hc with
  | cons ha ht => exact ⟨rfl, _, ha, rfl, ht⟩

theorem IsChainSeg.mono {h h2 : Nat → Option (Node V)} {st : Option Nat}
    {seg : List (Nat × NodeData V)} {cont : Option Nat}
    (hc : IsChainSeg h st seg cont) (hagree : ∀ p ∈ seg, h2 p.1 = h p.1) :
    IsChainSeg h2 st seg cont := by
  induction hc with
  | nil => exact .nil _
  | cons ha ht ih =>
    refine .cons ?_ (ih fun p hp => hagree p (List.mem_cons_of_mem _ hp))
    rw [hagree _ (List.mem_cons_self _ _)]
    exact ha

theorem isChainSeg_mid {h : Nat → Option (Node V)} {cont : Option Nat}
    {a : Nat} {d : NodeData V} :
    ∀ (l1 : List (Nat × NodeData V)) {cur : Option Nat} {l2 : List (Nat × NodeData V)},
      IsChainSeg h cur (l1 ++ (a, d) :: l2) cont →
      IsChainSeg h (some a) ((a, d) :: l2) cont := by
  intro l1
  induction l1 with
  | nil =>
    intro cur l2 hc
    obtain ⟨rfl, -⟩ := hc.cons_inv
    exact hc
  | cons q l1' ih =>
    intro cur l2 hc
    obtain ⟨b, e⟩ := q
    obtain ⟨rfl, n, hn, hd, ht⟩ := hc.cons_inv
    exact ih ht

theorem isChain_unique {h : Nat → Option (Node V)} :
    ∀ {c1 : List (Nat × NodeData V)} {cur : Option Nat} {c2 : List (Nat × NodeData V)},
      IsChain h cur c1 → IsChain h cur c2 → c1 = c2 := by
  intro c1
  induction c1 with
  | nil =>
    intro cur c2 h1 h2
    obtain rfl := h1.nil_inv
    cases h2 with
    | nil => rfl
  | cons p c1' ih =>
    intro cur c2 h1 h2
    obtain ⟨a, d⟩ := p
    obtain ⟨rfl, n, hn, hd, ht⟩ := h1.cons_inv
    cases c2 with
    | nil => exact absurd h2.nil_inv (by simp)
    | cons q c2' =>
      obtain ⟨b, e⟩ := q
      obtain ⟨hab, n2, hn2, hd2, ht2⟩ := h2.cons_inv
      injection hab with hab
      subst hab
      rw [hn] at hn2
      injection hn2 with hnn
      subst hnn
      rw [← hd, ← hd2, ih ht ht2]

theorem isChain_nodup {h : Nat → Option (Node V)} :
    ∀ {c : List (Nat × NodeData V)} {cur : Option Nat}, IsChain h cur c →
      (c.map Prod.fst).Nodup := by
  intro c
  induction c with
  | nil => intro cur _; simp
  | cons p c' ih =>
    intro cur hc
    obtain ⟨a, d⟩ := p
    obtain ⟨rfl, n, hn, hd, ht⟩ := hc.cons_inv
    simp only [List.map_cons, List.nodup_cons]
    refine ⟨?_, ih ht⟩
    intro hmem
    obtain ⟨⟨a2, d2⟩, hp, ha2⟩ := List.mem_map.mp hmem
    dsimp at ha2
    rw [ha2] at hp
    obtain ⟨u, v, rfl⟩ := List.append_of_mem hp
    have h1 : IsChainSeg h (some a) ((a, d2) :: v) none :=
      isChainSeg_mid ((a, d) :: u) hc
    have h2 := isChain_unique hc h1
    have := congrArg List.length h2
    simp at this
    omega

theorem isChainSeg_mem_lookup {h : Nat → Option (Node V)} {cur cont : Option Nat}
    {c : List (Nat × NodeData V)} (hc : IsChainSeg h cur c cont) :
    ∀ p ∈ c, ∃ n : Node V, h p.1 = some n ∧ n.node_data = p.2 := by
  induction hc with
  | nil => simp
  | cons ha ht ih =>
    intro p hp
    rcases List.mem_cons.mp hp with rfl | hp
    · exact ⟨_, ha, rfl⟩
    · exact ih p hp

theorem chain_addr_lt {h : Nat → Option (Node V)} {m : Nat} {cur cont : Option Nat}
    {c : List (Nat × NodeData V)} (hb : HeapBounded h m)
    (hc : IsChainSeg h cur c cont) : ∀ p ∈ c, p.1 < m := by
  intro p hp
  obtain ⟨n, hn, -⟩ := isChainSeg_mem_lookup hc p hp
  by_contra hlt
  rw [hb p.1 (by omega)] at hn
  exact Option.noConfusion hn

theorem isChain_start {h : Nat → Option (Node V)} {cur : Option Nat}
    {c : List (Nat × NodeData V)} (hc : IsChain h cur c) : cur = chainHead c := by
  cases c with
  | nil => exact hc.nil_inv
  | cons p c' =>
    obtain ⟨a, d⟩ := p
    obtain ⟨rfl, -⟩ := hc.cons_inv
    rfl

theorem isChainSeg_snoc {h : Nat → Option (Node V)} {a : Nat} {n : Node V}
    (hn : h a = some n) :
    ∀ {seg : List (Nat × NodeData V)} {st : Option Nat},
      IsChainSeg h st seg (some a) →
      IsChainSeg h st (seg ++ [(a, n.node_data)]) n.next_node := by
  intro seg
  induction seg with
  | nil =>
    intro st hseg
    obtain rfl := hseg.nil_inv
    exact .cons hn (.nil _)
  | cons q seg' ih =>
    intro st hseg
    obtain ⟨b, e⟩ := q
    obtain ⟨rfl, nb, hnb, hdb, ht⟩ := hseg.cons_inv
    rw [← hdb]
    exact .cons hnb (ih ht)

theorem isChainSeg_relink {h : Nat → Option (Node V)} {p : Nat} {dp : NodeData V}
    {c2 : Option Nat} :
    ∀ {ks : List (Nat × NodeData V)} {st : Option Nat} {cont : Option Nat},
      IsChainSeg h st (ks ++ [(p, dp)]) cont →
      ((ks ++ [(p, dp)]).map Prod.fst).Nodup →
      IsChainSeg (heapWrite h p (some { node_data := dp, next_node := c2 })) st
        (ks ++ [(p, dp)]) c2 := by
  intro ks
  induction ks with
  | nil =>
    intro st cont hseg hnd
    obtain ⟨rfl, n, hn, hd, ht⟩ := hseg.cons_inv
    have hp : heapWrite h p (some { node_data := dp, next_node := c2 }) p =
        some { node_data := dp, next_node := c2 } := by
      simp [heapWrite]
    have := IsChainSeg.cons (h := heapWrite h p (some { node_data := dp, next_node := c2 }))
      hp (.nil c2)
    simpa using this
  | cons q ks' ih =>
    intro st cont hseg hnd
    obtain ⟨b, e⟩ := q
    obtain ⟨rfl, nb, hnb, hdb, ht⟩ := hseg.cons_inv
    simp only [List.cons_append, List.map_cons, List.nodup_cons] at hnd
    have hbp : b ≠ p := by
      intro hbp
      exact hnd.1 (by simp [hbp])
    rw [← hdb]
    refine .cons ?_ (ih ht hnd.2)
    rw [heapWrite, if_neg hbp]
    exact hnb

theorem isChainSeg_last_lookup {h : Nat → Option (Node V)} {p : Nat} {dp : NodeData V} :
    ∀ {ks : List (Nat × NodeData V)} {st : Option Nat} {cont : Option Nat},
      IsChainSeg h st (ks ++ [(p, dp)]) cont →
      h p = some { node_data := dp, next_node := cont } := by
  intro ks
  induction ks with
  | nil =>
    intro st cont hseg
    obtain ⟨rfl, n, hn, hd, ht⟩ := hseg.cons_inv
    obtain ⟨nd, nn⟩ := n
    obtain rfl := ht.nil_inv
    dsimp at hd
    subst hd
    exact hn
  | cons q ks' ih =>
    intro st cont hseg
    obtain ⟨b, e⟩ := q
    obtain ⟨rfl, nb, hnb, hdb, ht⟩ := hseg.cons_inv
    exact ih ht

/-! ### Loop correctness over a chain -/

theorem printLoop_eq {h : Nat → Option (Node V)} :
    ∀ {c : List (Nat × NodeData V)} {cur : Option Nat} {fuel : Nat},
      IsChain h cur c → c.length ≤ fuel →
      printLoop h fuel cur = some (c.map Prod.snd) := by
  intro c
  induction c with
  | nil =>
    intro cur fuel hc _
    obtain rfl := hc.nil_inv
    cases fuel <;> rfl
  | cons p c' ih =>
    intro cur fuel hc hfuel
    obtain ⟨a, d⟩ := p
    obtain ⟨rfl, n, hn, hd, ht⟩ := hc.cons_inv
    cases fuel with
    | zero => simp at hfuel
    | succ f =>
      have hf : c'.length ≤ f := by simp at hfuel; omega
      simp only [printLoop, hn]
      rw [ih ht hf]
      simp [hd]

theorem lengthLoop_eq {h : Nat → Option (Node V)} :
    ∀ {c : List (Nat × NodeData V)} {cur : Option Nat} {fuel : Nat},
      IsChain h cur c → c.length ≤ fuel →
      lengthLoop h fuel cur = some c.length := by
  intro c
  induction c with
  | nil =>
    intro cur fuel hc _
    obtain rfl := hc.nil_inv
    cases fuel <;> rfl
  | cons p c' ih =>
    intro cur fuel hc hfuel
    obtain ⟨a, d⟩ := p
    obtain ⟨rfl, n, hn, hd, ht⟩ := hc.cons_inv
    cases fuel with
    | zero => simp at hfuel
    | succ f =>
      have hf : c'.length ≤ f := by simp at hfuel; omega
      simp only [lengthLoop, hn]
      rw [ih ht hf]
      simp

theorem findLoop_eq {cmp : NodeData V → NodeData V → Bool} {h : Nat → Option (Node V)}
    {v : NodeData V} :
    ∀ {c : List (Nat × NodeData V)} {cur : Option Nat} {fuel : Nat},
      IsChain h cur c → c.length ≤ fuel →
      findLoop cmp h v fuel cur =
        some ((c.find? (fun p => cmp p.2 v)).map Prod.fst) := by
  intro c
  induction c with
  | nil =>
    intro cur fuel hc _
    obtain rfl := hc.nil_inv
    cases fuel <;> rfl
  | cons p c' ih =>
    intro cur fuel hc hfuel
    obtain ⟨a, d⟩ := p
    obtain ⟨rfl, n, hn, hd, ht⟩ := hc.cons_inv
    cases fuel with
    | zero => simp at hfuel
    | succ f =>
      have hf : c'.length ≤ f := by simp at hfuel; omega
      subst hd
      by_cases hcmp : cmp n.node_data v
      · rw [List.find?_cons_of_pos _ (by simpa using hcmp)]
        simp only [findLoop, hn]
        simp [hcmp]
      · rw [List.find?_cons_of_neg _ (by simpa using hcmp)]
        simp only [findLoop, hn]
        rw [if_neg hcmp]
        exact ih ht hf

theorem freeLoop_eq :
    ∀ {c : List (Nat × NodeData V)} {h : Nat → Option (Node V)} {cur : Option Nat}
      {fuel : Nat},
      IsChain h cur c → c.length ≤ fuel →
      ∃ h2, freeLoop h fuel cur = some (h2, c.map Prod.snd) ∧
        ∀ x, h2 x = if x ∈ c.map Prod.fst then none else h x := by
  intro c
  induction c with
  | nil =>
    intro h cur fuel hc _
    obtain rfl := hc.nil_inv
    refine ⟨h, ?_, ?_⟩
    · cases fuel <;> rfl
    · simp
  | cons p c' ih =>
    intro h cur fuel hc hfuel
    obtain ⟨a, d⟩ := p
    have hnd := isChain_nodup hc
    obtain ⟨rfl, n, hn, hd, ht⟩ := hc.cons_inv
    cases fuel with
    | zero => simp at hfuel
    | succ f =>
      have hf : c'.length ≤ f := by simp at hfuel; omega
      simp only [List.map_cons, List.nodup_cons] at hnd
      have ht' : IsChain (heapWrite h a none) n.next_node c' :=
        ht.mono (fun q hq => by
          rw [heapWrite, if_neg]
          intro heq
          exact hnd.1 (heq ▸ List.mem_map_of_mem Prod.fst hq))
      obtain ⟨h2, heq, hh2⟩ := ih ht' hf
      refine ⟨h2, ?_, ?_⟩
      · simp only [freeLoop, hn, heq]
        simp [hd]
      · intro x
        rw [hh2 x]
        by_cases hx : x ∈ c'.map Prod.fst
        · simp [hx]
        · by_cases hxa : x = a
          · subst hxa
            simp [hx, heapWrite]
          · simp [hx, hxa, heapWrite]

theorem reverseLoop_spec :
    ∀ {c m : List (Nat × NodeData V)} {h : Nat → Option (Node V)}
      {prev cur : Option Nat} {fuel : Nat},
      IsChain h cur c → IsChain h prev m →
      (∀ a ∈ c.map Prod.fst, a ∉ m.map Prod.fst) →
      c.length ≤ fuel →
      ∃ h2, reverseLoop h fuel prev cur = some (h2, chainHead (c.reverse ++ m)) ∧
        IsChain h2 (chainHead (c.reverse ++ m)) (c.reverse ++ m) ∧
        ∀ x, x ∉ c.map Prod.fst → h2 x = h x := by
  intro c
  induction c with
  | nil =>
    intro m h prev cur fuel hc hm hdisj hfuel
    obtain rfl := hc.nil_inv
    have hp := isChain_start hm
    refine ⟨h, ?_, ?_, fun x _ => rfl⟩
    · cases fuel <;> simp [reverseLoop, hp]
    · simpa [← hp] using hm
  | cons p c' ih =>
    intro m h prev cur fuel hc hm hdisj hfuel
    obtain ⟨a, d⟩ := p
    have hnd := isChain_nodup hc
    obtain ⟨rfl, n, hn, hd, ht⟩ := hc.cons_inv
    cases fuel with
    | zero => simp at hfuel
    | succ f =>
      simp only [List.map_cons, List.nodup_cons] at hnd
      have hf : c'.length ≤ f := by simp at hfuel; omega
      have hanotm : a ∉ m.map Prod.fst := hdisj a (by simp)
      have hc' : IsChain (heapWrite h a (some { n with next_node := prev }))
          n.next_node c' :=
        ht.mono (fun q hq => by
          rw [heapWrite, if_neg]
          intro heq
          exact hnd.1 (heq ▸ List.mem_map_of_mem Prod.fst hq))
      have hm' : IsChain (heapWrite h a (some { n with next_node := prev }))
          (some a) ((a, d) :: m) := by
        have hmm : IsChainSeg (heapWrite h a (some { n with next_node := prev }))
            prev m none :=
          hm.mono (fun q hq => by
            rw [heapWrite, if_neg]
            intro heq
            exact hanotm (heq ▸ List.mem_map_of_mem Prod.fst hq))
        have ha' : heapWrite h a (some { n with next_node := prev }) a =
            some { n with next_node := prev } := by
          simp [heapWrite]
        have hcons := IsChainSeg.cons ha' hmm
        simpa [hd] using hcons
      have hdisj' : ∀ x ∈ c'.map Prod.fst, x ∉ ((a, d) :: m).map Prod.fst := by
        intro x hx
        simp only [List.map_cons, List.mem_cons]
        rintro (rfl | hxm)
        · exact hnd.1 hx
        · exact hdisj x (by simp [hx]) hxm
      obtain ⟨h2, heq, hch, hframe⟩ := ih hc' hm' hdisj' hf
      have hlist : c'.reverse ++ (a, d) :: m = ((a, d) :: c').reverse ++ m := by
        simp
      refine ⟨h2, ?_, ?_, ?_⟩
      · simp only [reverseLoop, hn]
        rw [heq, hlist]
      · rw [← hlist]
        exact hch
      · intro x hx
        simp only [List.map_cons, List.mem_cons] at hx
        push_neg at hx
        rw [hframe x hx.2, heapWrite, if_neg hx.1]

/-! ### The delete loop -/

theorem getLast?_append_right {α : Type _} {l1 l2 : List α} (h : l2 ≠ []) :
    (l1 ++ l2).getLast? = l2.getLast? := by
  rw [List.getLast?_append]
  cases hq : l2.getLast? with
  | none => exact absurd (List.getLast?_eq_none_iff.mp hq) h
  | some q => rfl

theorem exists_concat_of_getLast?_fst {l : List (Nat × NodeData V)} {p : Nat}
    (h : (l.map Prod.fst).getLast? = some p) : ∃ ks dp, l = ks ++ [(p, dp)] := by
  rw [List.getLast?_map] at h
  cases hq : l.getLast? with
  | none => rw [hq] at h; simp at h
  | some q =>
    rw [hq] at h
    simp only [Option.map_some'] at h
    injection h with h1
    obtain ⟨ks, hks⟩ := List.getLast?_eq_some_iff.mp hq
    exact ⟨ks, q.2, by rw [hks, ← h1]⟩

theorem heapBounded_write_none {h : Nat → Option (Node V)} {m : Nat} (hb : HeapBounded h m)
    (a : Nat) : HeapBounded (heapWrite h a none) m := by
  intro x hx
  rw [heapWrite]
  split
  · rfl
  · exact hb x hx

theorem lookup_lt_of_bounded {h : Nat → Option (Node V)} {m a : Nat} {n : Node V}
    (hb : HeapBounded h m) (ha : h a = some n) : a < m := by
  by_contra hlt
  rw [hb a (by omega)] at ha
  exact Option.noConfusion ha

theorem heapBounded_write_lt {h : Nat → Option (Node V)} {m a : Nat} {n : Option (Node V)}
    (hb : HeapBounded h m) (ha : a < m) : HeapBounded (heapWrite h a n) m := by
  intro x hx
  rw [heapWrite, if_neg (show ¬x = a by omega)]
  exact hb x hx

theorem deleteLoop_spec {v : NodeData V} :
    ∀ {rem : List (Nat × NodeData V)} {s : SinglyLinkedList V}
      {kept : List (Nat × NodeData V)} {cur : Option Nat} {fuel count : Nat}
      {trace : List (NodeData V)},
      IsChainSeg s.heap s.head_node kept cur →
      IsChain s.heap cur rem →
      ((kept ++ rem).map Prod.fst).Nodup →
      s.tail_node = ((kept ++ rem).map Prod.fst).getLast? →
      HeapBounded s.heap s.next_alloc →
      rem.length ≤ fuel →
      ∃ s2 : SinglyLinkedList V,
        deleteLoop v fuel s ((kept.map Prod.fst).getLast?) cur count trace =
          some (s2,
            count + (rem.filter (fun p => s.compare_data_function p.2 v)).length,
            trace ++ (rem.filter (fun p => s.compare_data_function p.2 v)).map Prod.snd) ∧
        IsChain s2.heap s2.head_node
          (kept ++ rem.filter (fun p => !s.compare_data_function p.2 v)) ∧
        s2.tail_node =
          ((kept ++ rem.filter (fun p => !s.compare_data_function p.2 v)).map
            Prod.fst).getLast? ∧
        s2.next_alloc = s.next_alloc ∧
        s2.compare_data_function = s.compare_data_function ∧
        HeapBounded s2.heap s2.next_alloc := by
  intro rem
  induction rem with
  | nil =>
    intro s kept cur fuel count trace hkept hrem hnd htail hb hfuel
    obtain rfl := hrem.nil_inv
    refine ⟨s, ?_, ?_, ?_, rfl, rfl, hb⟩
    · cases fuel <;> simp [deleteLoop]
    · simpa using hkept
    · simpa using htail
  | cons q rest ih =>
    intro s kept cur fuel count trace hkept hrem hnd htail hb hfuel
    obtain ⟨a, d⟩ := q
    have hndfull := hnd
    obtain ⟨rfl, n, hn, hd, ht⟩ := hrem.cons_inv
    obtain ⟨nd, nn⟩ := n
    dsimp at hd ht
    have hd2 : d = nd := hd.symm
    subst hd2
    cases fuel with
    | zero => simp at hfuel
    | succ f =>
      have hf : rest.length ≤ f := by simp at hfuel; omega
      simp only [List.map_append, List.map_cons] at hnd
      rw [List.nodup_append] at hnd
      obtain ⟨hndk, hnda, hdisj⟩ := hnd
      rw [List.nodup_cons] at hnda
      obtain ⟨har, hndr⟩ := hnda
      have hak : a ∉ kept.map Prod.fst := fun hx => hdisj hx (by simp)
      have hnd' : ((kept ++ rest).map Prod.fst).Nodup := by
        rw [List.map_append, List.nodup_append]
        exact ⟨hndk, hndr, fun x hx1 hx2 => hdisj hx1 (by simp [hx2])⟩
      by_cases hcmp : s.compare_data_function d v
      · -- the node matches: it is unlinked, its value released, the node freed
        cases hkl : (kept.map Prod.fst).getLast? with
        | none =>
          -- no previous node: the matching node is the current head
          have hkeptnil : kept = [] := by
            have := List.getLast?_eq_none_iff.mp hkl
            exact List.map_eq_nil_iff.mp this
          subst hkeptnil
          have hhead := hkept.nil_inv
          cases nn with
          | none =>
            -- the deleted node was also the last one
            have hrestnil : rest = [] := by
              cases ht with
              | nil => rfl
            subst hrestnil
            refine ⟨{ s with
                head_node := none
                tail_node := none
                heap := heapWrite s.heap a none }, ?_, ?_, ?_, rfl, rfl, ?_⟩
            · simp only [deleteLoop, hn, hhead]
              simp [hcmp, deleteLoop]
              try omega
            · simpa [hcmp] using IsChainSeg.nil (h := heapWrite s.heap a none) none
            · simp [hcmp]
            · exact heapBounded_write_none hb a
          | some b =>
            -- the head advances to the successor
            have hrestne : rest ≠ [] := by
              intro hrestnil
              rw [hrestnil] at ht
              exact absurd ht.nil_inv (by simp)
            have hkept'' : IsChainSeg
                (heapWrite s.heap a none)
                ({ s with
                    head_node := some b
                    heap := heapWrite s.heap a none } : SinglyLinkedList V).head_node
                [] (some b) := IsChainSeg.nil _
            have ht'' : IsChain (heapWrite s.heap a none) (some b) rest :=
              ht.mono (fun q hq => by
                rw [heapWrite, if_neg]
                intro heq
                exact har (heq ▸ List.mem_map_of_mem Prod.fst hq))
            have htail'' : ({ s with
                head_node := some b
                heap := heapWrite s.heap a none } : SinglyLinkedList V).tail_node =
                (([] ++ rest).map Prod.fst).getLast? := by
              obtain ⟨r1, rest', rfl⟩ := List.exists_cons_of_ne_nil hrestne
              simpa using htail
            have hb'' : HeapBounded (heapWrite s.heap a none) s.next_alloc :=
              heapBounded_write_none hb a
            obtain ⟨s2, heq, hch, htl, hna, hcm, hb2⟩ :=
              ih (s := { s with head_node := some b, heap := heapWrite s.heap a none })
                hkept'' ht'' (by simpa using hnd') (by simpa using htail'') hb'' hf
            refine ⟨s2, ?_, ?_, ?_, hna, hcm, hb2⟩
            · simp only [deleteLoop, hn, hhead]
              simp only [hcmp, if_true]
              rw [show ((List.map Prod.fst ([] : List (Nat × NodeData V))).getLast?) =
                (none : Option Nat) from rfl] at heq
              simp only [List.nil_append] at heq ⊢
              rw [heq]
              simp [hcmp]
              try omega
            · simpa [hcmp] using hch
            · simpa [hcmp] using htl
        | some p =>
          -- a previous node exists: it is re-linked around the deleted node
          obtain ⟨ks, dp, hks⟩ := exists_concat_of_getLast?_fst hkl
          have hlookup : s.heap p = some { node_data := dp, next_node := some a } :=
            isChainSeg_last_lookup (hks ▸ hkept)
          have hpk : p ∈ kept.map Prod.fst := by
            rw [hks]
            simp
          have hpa : p ≠ a := fun heq => hdisj hpk (by simp [heq])
          have hpr : p ∉ rest.map Prod.fst := fun hx => hdisj hpk (by simp [hx])
          have hrelink : IsChainSeg
              (heapWrite (heapWrite s.heap p (some { node_data := dp, next_node := nn })) a
                none) s.head_node kept nn := by
            have h1 : IsChainSeg (heapWrite s.heap p (some { node_data := dp, next_node := nn }))
                s.head_node (ks ++ [(p, dp)]) nn :=
              isChainSeg_relink (hks ▸ hkept) (by rw [← hks]; exact hndk)
            have h2 : IsChainSeg
                (heapWrite (heapWrite s.heap p (some { node_data := dp, next_node := nn })) a
                  none) s.head_node (ks ++ [(p, dp)]) nn :=
              h1.mono (fun q hq => by
                rw [heapWrite, if_neg]
                intro heq
                refine hak ?_
                rw [← heq, hks]
                exact List.mem_map_of_mem Prod.fst hq)
            rw [← hks] at h2
            exact h2
          have ht'' : IsChain
              (heapWrite (heapWrite s.heap p (some { node_data := dp, next_node := nn })) a
                none) nn rest :=
            ht.mono (fun q hq => by
              rw [heapWrite, if_neg, heapWrite, if_neg]
              · intro heq
                exact hpr (heq ▸ List.mem_map_of_mem Prod.fst hq)
              · intro heq
                exact har (heq ▸ List.mem_map_of_mem Prod.fst hq))
          have hb'' : HeapBounded
              (heapWrite (heapWrite s.heap p (some { node_data := dp, next_node := nn })) a
                none) s.next_alloc :=
            heapBounded_write_none
              (heapBounded_write_lt hb (lookup_lt_of_bounded hb hlookup)) a
          cases nn with
          | none =>
            -- deleted the last node: the tail becomes the previous node
            have hrestnil : rest = [] := by
              cases ht with
              | nil => rfl
            subst hrestnil
            refine ⟨{ s with
                tail_node := some p
                heap := heapWrite
                  (heapWrite s.heap p (some { node_data := dp, next_node := none })) a
                  none }, ?_, ?_, ?_, rfl, rfl, hb''⟩
            · simp only [deleteLoop, hn, hkl, hlookup]
              simp [hcmp, deleteLoop]
              try omega
            · simpa [hcmp] using hrelink
            · simp [hcmp]
              rw [← hkl]
              exact List.getLast?_map _ _
          | some b =>
            -- deleted a middle node: head and tail are untouched
            have hrestne : rest ≠ [] := by
              intro hrestnil
              rw [hrestnil] at ht
              exact absurd ht.nil_inv (by simp)
            have htail'' : (({ s with
                heap := heapWrite s.heap p (some { node_data := dp, next_node := some b })
                  } : SinglyLinkedList V).tail_node) =
                ((kept ++ rest).map Prod.fst).getLast? := by
              obtain ⟨r1, rest', rfl⟩ := List.exists_cons_of_ne_nil hrestne
              show s.tail_node = _
              rw [htail]
              simp only [List.map_append, List.map_cons]
              rw [getLast?_append_right (by simp), getLast?_append_right (by simp),
                List.getLast?_cons_cons]
            obtain ⟨s2, heq, hch, htl, hna, hcm, hb2⟩ :=
              ih (s := { s with
                  heap := heapWrite
                    (heapWrite s.heap p (some { node_data := dp, next_node := some b })) a
                    none })
                hrelink ht'' hnd' htail'' hb'' hf
            refine ⟨s2, ?_, ?_, ?_, hna, hcm, hb2⟩
            · simp only [deleteLoop, hn, hkl, hlookup]
              simp only [hcmp, if_true]
              rw [hkl] at heq
              rw [heq]
              simp [hcmp]
              try omega
            · simpa [hcmp] using hch
            · simpa [hcmp] using htl
      · -- the node does not match: the walk advances
        have hcmpf : s.compare_data_function d v = false := by
          simpa using hcmp
        have hkept' : IsChainSeg s.heap s.head_node (kept ++ [(a, d)]) nn :=
          isChainSeg_snoc hn hkept
        have hlls : (kept ++ [(a, d)]) ++ rest = kept ++ (a, d) :: rest := by
          simp
        obtain ⟨s2, heq, hch, htl, hna, hcm, hb2⟩ :=
          ih hkept' ht (by rw [hlls]; exact hndfull)
            (by rw [hlls]; exact htail) hb hf
        have hgl : ((kept ++ [(a, d)]).map Prod.fst).getLast? = some a := by
          simp
        rw [hgl] at heq
        refine ⟨s2, ?_, ?_, ?_, hna, hcm, hb2⟩
        · simp only [deleteLoop, hn]
          rw [if_neg (by simp [hcmpf])]
          rw [heq]
          simp [hcmpf]
        · simpa [hcmpf] using hch
        · simpa [hcmpf] using htl

/-! ### Derived facts about whole operations -/

theorem chain_length_le {h : Nat → Option (Node V)} {m : Nat} {cur : Option Nat}
    {c : List (Nat × NodeData V)} (hb : HeapBounded h m) (hc : IsChain h cur c) :
    c.length ≤ m := by
  have hnd := isChain_nodup hc
  have hsub : (c.map Prod.fst) ⊆ List.range m := by
    intro x hx
    rw [List.mem_range]
    obtain ⟨q, hq, rfl⟩ := List.mem_map.mp hx
    exact chain_addr_lt hb hc q hq
  have := (List.subperm_of_subset hnd hsub).length_le
  simpa using this

theorem chainHead_none {c : List (Nat × NodeData V)} (h : chainHead c = none) : c = [] := by
  cases c with
  | nil => rfl
  | cons q c' => simp [chainHead] at h

theorem print_singly_linked_list_eq {s : SinglyLinkedList V} {c : List (Nat × NodeData V)}
    (hchain : IsChain s.heap s.head_node c) (hb : HeapBounded s.heap s.next_alloc) :
    print_singly_linked_list (some s) = some (c.map Prod.snd) :=
  printLoop_eq hchain (chain_length_le hb hchain)

theorem get_linked_list_length_eq {s : SinglyLinkedList V} {c : List (Nat × NodeData V)}
    (hchain : IsChain s.heap s.head_node c) (hb : HeapBounded s.heap s.next_alloc) :
    get_linked_list_length (some s) = some c.length := by
  have hlen := chain_length_le hb hchain
  cases hh : s.head_node with
  | none =>
    have hc : c = [] := by
      have hs := isChain_start hchain
      rw [hh] at hs
      exact chainHead_none hs.symm
    subst hc
    simp [get_linked_list_length, hh]
  | some a =>
    rw [hh] at hchain
    simp only [get_linked_list_length, hh]
    exact lengthLoop_eq hchain hlen

/-- Claim C4 (amended): for every well-formed non-empty list, `reverse` makes
the previous last element the new head and reverses every link, so walking
from the head afterwards visits the values in reverse order — but the tail
reference is left unchanged (the source never writes `tail_node`), so it
ends up at the new head rather than at the previous head, as the claim as
stated would require. -/
theorem c4_reverse_amended {V : Type} (s : SinglyLinkedList V)
    (c : List (Nat × NodeData V)) (hwf : WF s c) (hne : c ≠ []) :
    ∃ s2 : SinglyLinkedList V,
      reverse_singly_linked_list (some s) = some (some s2) ∧
      print_singly_linked_list (some s2) = some ((c.map Prod.snd).reverse) ∧
      s2.head_node = (c.map Prod.fst).getLast? ∧
      s2.tail_node = s.tail_node := by
  obtain ⟨hchain, htail, hb⟩ := hwf
  have hlen := chain_length_le hb hchain
  obtain ⟨h2, heq, hch, hframe⟩ :=
    reverseLoop_spec hchain (IsChainSeg.nil none) (by simp) hlen
  have hh : s.head_node = chainHead c := isChain_start hchain
  obtain ⟨q, hq⟩ : ∃ q, chainHead c = some q := by
    obtain ⟨p0, c', rfl⟩ := List.exists_cons_of_ne_nil hne
    exact ⟨p0.1, rfl⟩
  rw [hq] at hh
  refine ⟨{ s with heap := h2, head_node := chainHead (c.reverse ++ []) }, ?_, ?_, ?_, rfl⟩
  · simp only [reverse_singly_linked_list, hh]
    rw [hh] at heq
    rw [heq]
  · show printLoop h2 s.next_alloc (chainHead (c.reverse ++ [])) = _
    rw [printLoop_eq hch (by simpa using hlen)]
    simp
  · show chainHead (c.reverse ++ []) = _
    simp [chainHead, List.getLast?_map]

/-- Claim C7: reverse is an involution.  For every list whose heap holds a
finite chain from the head, reversing twice terminates and restores the
traversal order, the head reference and the tail reference. -/
theorem c7_reverse_involution {V : Type} (s : SinglyLinkedList V)
    (c : List (Nat × NodeData V)) (hchain : IsChain s.heap s.head_node c)
    (hb : HeapBounded s.heap s.next_alloc) (hne : c ≠ []) :
    ∃ s1 s2 : SinglyLinkedList V,
      reverse_singly_linked_list (some s) = some (some s1) ∧
      reverse_singly_linked_list (some s1) = some (some s2) ∧
      print_singly_linked_list (some s2) = print_singly_linked_list (some s) ∧
      s2.head_node = s.head_node ∧
      s2.tail_node = s.tail_node := by
  have hlen := chain_length_le hb hchain
  obtain ⟨h2, heq, hch, hframe⟩ :=
    reverseLoop_spec hchain (IsChainSeg.nil none) (by simp) hlen
  have hh : s.head_node = chainHead c := isChain_start hchain
  obtain ⟨q, hq⟩ : ∃ q, chainHead c = some q := by
    obtain ⟨p0, c', rfl⟩ := List.exists_cons_of_ne_nil hne
    exact ⟨p0.1, rfl⟩
  rw [hq] at hh
  have hch' : IsChain h2 (chainHead c.reverse) c.reverse := by
    simpa using hch
  have hlen2 : c.reverse.length ≤ s.next_alloc := by simpa using hlen
  obtain ⟨h3, heq2, hch2, hframe2⟩ :=
    reverseLoop_spec hch' (IsChainSeg.nil none) (by simp) hlen2
  obtain ⟨q2, hq2⟩ : ∃ q2, chainHead c.reverse = some q2 := by
    have hne2 : c.reverse ≠ [] := by simpa using hne
    obtain ⟨p0, c', hc'⟩ := List.exists_cons_of_ne_nil hne2
    rw [hc']
    exact ⟨p0.1, rfl⟩
  have hch2' : IsChain h3 (chainHead (c.reverse.reverse ++ [])) c := by
    simpa using hch2
  refine ⟨{ s with heap := h2, head_node := chainHead (c.reverse ++ []) },
    { s with heap := h3, head_node := chainHead (c.reverse.reverse ++ []) },
    ?_, ?_, ?_, ?_, rfl⟩
  · simp only [reverse_singly_linked_list, hh]
    rw [hh] at heq
    rw [heq]
  · have hhd1 : chainHead (c.reverse ++ []) = some q2 := by
      rw [← hq2]
      simp [chainHead]
    simp only [reverse_singly_linked_list, hhd1]
    rw [hq2] at heq2
    rw [heq2]
  · show printLoop h3 s.next_alloc (chainHead (c.reverse.reverse ++ [])) = _
    rw [printLoop_eq hch2' (by simpa using hlen)]
    rw [print_singly_linked_list_eq hchain hb]
  · show chainHead (c.reverse.reverse ++ []) = _
    rw [hh, ← hq]
    simp [chainHead]

/-- Claim C9: teardown releases every remaining value exactly once (the trace
of `free_data_function` calls is exactly the stored values in head-to-tail
order), discards every element, and resets head and tail to NULL, after which
the length is 0. -/
theorem c9_teardown {V : Type} (s : SinglyLinkedList V) (c : List (Nat × NodeData V))
    (hchain : IsChain s.heap s.head_node c) (hb : HeapBounded s.heap s.next_alloc) :
    ∃ s2 : SinglyLinkedList V,
      free_singly_linked_list (some s) = some (some s2, c.map Prod.snd) ∧
      s2.head_node = none ∧ s2.tail_node = none ∧
      get_linked_list_length (some s2) = some 0 := by
  have hlen := chain_length_le hb hchain
  obtain ⟨h2, heq, hh2⟩ := freeLoop_eq hchain hlen
  refine ⟨{ s with heap := h2, head_node := none, tail_node := none }, ?_, rfl, rfl, rfl⟩
  simp only [free_singly_linked_list, heq]

/-- Claim C5: `delete_node_by_data` on a well-formed list removes every
element accepted by the comparator, returns the number removed, releases
(via `free_data_function`) exactly the removed values in walk order, and
leaves a list that traverses to the non-matching values with the length
decreased accordingly and the tail at the last remaining element; on a NULL
handle it returns 0 with nothing released. -/
theorem c5_delete_by_value {V : Type} (s : SinglyLinkedList V)
    (c : List (Nat × NodeData V)) (v : NodeData V) (hwf : WF s c) :
    delete_node_by_data (none : Option (SinglyLinkedList V)) v = some (none, 0, []) ∧
    ∃ s2 : SinglyLinkedList V,
      delete_node_by_data (some s) v =
        some (some s2,
          (c.filter (fun p => s.compare_data_function p.2 v)).length,
          (c.filter (fun p => s.compare_data_function p.2 v)).map Prod.snd) ∧
      print_singly_linked_list (some s2) =
        some ((c.filter (fun p => !s.compare_data_function p.2 v)).map Prod.snd) ∧
      get_linked_list_length (some s2) =
        some (c.filter (fun p => !s.compare_data_function p.2 v)).length ∧
      s2.tail_node =
        ((c.filter (fun p => !s.compare_data_function p.2 v)).map Prod.fst).getLast? := by
  obtain ⟨hchain, htail, hb⟩ := hwf
  have hlen := chain_length_le hb hchain
  have hdel : ∃ s2 : SinglyLinkedList V,
      deleteLoop v s.next_alloc s none s.head_node 0 [] =
        some (s2, 0 + (c.filter (fun p => s.compare_data_function p.2 v)).length,
          (c.filter (fun p => s.compare_data_function p.2 v)).map Prod.snd) ∧
      IsChain s2.heap s2.head_node (c.filter (fun p => !s.compare_data_function p.2 v)) ∧
      s2.tail_node =
        ((c.filter (fun p => !s.compare_data_function p.2 v)).map Prod.fst).getLast? ∧
      s2.next_alloc = s.next_alloc ∧
      s2.compare_data_function = s.compare_data_function ∧
      HeapBounded s2.heap s2.next_alloc :=
    deleteLoop_spec (IsChainSeg.nil s.head_node) hchain
      (by simpa using isChain_nodup hchain) (by simpa using htail) hb hlen
  obtain ⟨s2, heq, hch, htl, hna, hcm, hb2⟩ := hdel
  refine ⟨rfl, s2, ?_, ?_, ?_, htl⟩
  · simp only [delete_node_by_data]
    rw [heq]
    simp
  · exact print_singly_linked_list_eq hch hb2
  · exact get_linked_list_length_eq hch hb2

/-- Claim C6 (amended): `find_node_by_data` on an empty list returns
not-found for every searched value (including the absent one); for an absent
(NULL) searched value the code does not reject it but passes it to the
comparator, so not-found is guaranteed when the comparator accepts no stored
value against NULL (but not for an arbitrary comparator — see the
counterexample). -/
theorem c6_find_amended {V : Type} (s : SinglyLinkedList V)
    (c : List (Nat × NodeData V)) (hchain : IsChain s.heap s.head_node c)
    (hb : HeapBounded s.heap s.next_alloc) :
    (s.head_node = none → ∀ w, find_node_by_data (some s) w = some none) ∧
    ((∀ p ∈ c, s.compare_data_function p.2 none = false) →
      find_node_by_data (some s) none = some none) := by
  constructor
  · intro hh w
    show findLoop s.compare_data_function s.heap w s.next_alloc s.head_node = some none
    rw [hh]
    cases s.next_alloc <;> rfl
  · intro hcm
    have hfl : findLoop s.compare_data_function s.heap none s.next_alloc s.head_node =
        some ((c.find? (fun p => s.compare_data_function p.2 none)).map Prod.fst) :=
      findLoop_eq hchain (chain_length_le hb hchain)
    have hnone : c.find? (fun p => s.compare_data_function p.2 none) = none := by
      rw [List.find?_eq_none]
      intro p hp
      simp [hcm p hp]
    show findLoop s.compare_data_function s.heap none s.next_alloc s.head_node = some none
    rw [hfl, hnone]
    rfl

/-- Claim C8: atomicity on failure.  Every operation called on a NULL handle
returns its error result without any state to mutate; inserting an absent
value, or inserting under allocation failure, returns the list exactly as it
was; reversing an empty list returns it exactly as it was; constructing with
a missing callback yields no list. -/
theorem c8_atomicity {V : Type} (s : SinglyLinkedList V) (v : NodeData V) (ao : Bool) :
    insert_node_at_head ao (none : Option (SinglyLinkedList V)) v = none ∧
    insert_node_at_tail ao (none : Option (SinglyLinkedList V)) v = some none ∧
    reverse_singly_linked_list (none : Option (SinglyLinkedList V)) = some none ∧
    delete_node_by_data (none : Option (SinglyLinkedList V)) v = some (none, 0, []) ∧
    free_singly_linked_list (none : Option (SinglyLinkedList V)) = some (none, []) ∧
    find_node_by_data (none : Option (SinglyLinkedList V)) v = some none ∧
    get_linked_list_length (none : Option (SinglyLinkedList V)) = some 0 ∧
    print_singly_linked_list (none : Option (SinglyLinkedList V)) = some [] ∧
    insert_node_at_head ao (some s) none = some s ∧
    insert_node_at_tail ao (some s) none = some (some s) ∧
    insert_node_at_head false (some s) v = some s ∧
    insert_node_at_tail false (some s) v = some (some s) ∧
    (s.head_node = none → reverse_singly_linked_list (some s) = some (some s)) ∧
    create_singly_linked_list ao (some ()) (some ())
      (none : Option (NodeData V → NodeData V → Bool)) = none := by
  refine ⟨rfl, rfl, rfl, rfl, rfl, rfl, rfl, rfl, rfl, rfl, ?_, ?_, ?_, rfl⟩
  · show some (insertHeadCore false s v) = some s
    cases v <;> rfl
  · show (insertTailCore false s v).map some = some (some s)
    cases v <;> rfl
  · intro hh
    simp [reverse_singly_linked_list, hh]

/-- Claim C10: a successful `insert_node_at_head` on a non-empty list changes
only the head reference and the new node's link: the tail reference, the
comparator, and every previously allocated node (value and next link alike)
are untouched; the new node is stored at a fresh address with the old head as
its successor. -/
theorem c10_insert_head_frame {V : Type} (s : SinglyLinkedList V) (v : V)
    (hb : HeapBounded s.heap s.next_alloc) (hne : s.head_node ≠ none) :
    ∃ s2 : SinglyLinkedList V,
      insert_node_at_head true (some s) (some v) = some s2 ∧
      s2.head_node = some s.next_alloc ∧
      s2.heap s.next_alloc = some { node_data := some v, next_node := s.head_node } ∧
      s2.tail_node = s.tail_node ∧
      s2.next_alloc = s.next_alloc + 1 ∧
      s2.compare_data_function = s.compare_data_function ∧
      ∀ a n, s.heap a = some n → s2.heap a = some n := by
  cases hh : s.head_node with
  | none => exact absurd hh hne
  | some h0 =>
    refine ⟨insertHeadCore true s (some v), rfl, ?_, ?_, ?_, ?_, ?_, ?_⟩
    · simp [insertHeadCore, create_node, hh]
    · simp [insertHeadCore, create_node, hh, heapWrite]
    · simp [insertHeadCore, create_node, hh]
    · simp [insertHeadCore, create_node, hh]
    · simp [insertHeadCore, create_node, hh]
    · intro a n ha
      have halt := lookup_lt_of_bounded hb ha
      have hana : ¬a = s.next_alloc := by omega
      simp [insertHeadCore, create_node, hh, heapWrite, hana, ha]

/-! ### Well-formedness of the concrete states -/

theorem wfDemo_chain : IsChain wfDemo.heap wfDemo.head_node wfDemoChain := by
  show IsChainSeg wfDemo.heap (some 0) wfDemoChain none
  refine IsChainSeg.cons (n := { node_data := some 10, next_node := some 1 }) rfl ?_
  refine IsChainSeg.cons (n := { node_data := some 20, next_node := some 2 }) rfl ?_
  refine IsChainSeg.cons (n := { node_data := some 30, next_node := none }) rfl ?_
  exact IsChainSeg.nil none

theorem wfDemo_bounded : HeapBounded wfDemo.heap wfDemo.next_alloc := by
  intro a ha
  have h3 : (3 : Nat) ≤ a := ha
  show wfDemoHeap a = none
  rw [wfDemoHeap, if_neg (show ¬a = 0 by omega), if_neg (show ¬a = 1 by omega),
    if_neg (show ¬a = 2 by omega)]

theorem wfDemo_wf : WF wfDemo wfDemoChain :=
  ⟨wfDemo_chain, rfl, wfDemo_bounded⟩

/-! ### Counterexamples and witnesses -/

/-- Claim C4 counterexample: on the concrete well-formed list [10, 20, 30]
(head at address 0, tail at address 2), `reverse` does produce the traversal
[30, 20, 10] and the new head is the previous tail, but the tail reference is
NOT updated to the previous head (address 0): it still holds address 2,
which is now the head.  So "both the head and tail references are updated"
is false on the code. -/
theorem c4_counterexample :
    ∃ s2 : SinglyLinkedList Nat,
      reverse_singly_linked_list (some wfDemo) = some (some s2) ∧
      print_singly_linked_list (some s2) = some [some 30, some 20, some 10] ∧
      wfDemo.head_node = some 0 ∧
      wfDemo.tail_node = some 2 ∧
      s2.head_node = some 2 ∧
      s2.tail_node = some 2 ∧
      s2.tail_node ≠ some 0 := by
  refine ⟨_, rfl, rfl, rfl, rfl, rfl, rfl, by decide⟩

/-- Claim C6 counterexample: on a one-element list whose comparator accepts
every pair (including an absent second argument), searching for the absent
value returns the node at address 0 — not not-found — because the code
passes the NULL search value straight to the comparator instead of rejecting
it. -/
theorem c6_counterexample :
    find_node_by_data (some trueDemo) (none : NodeData Nat) = some (some 0) ∧
    (some (some 0) : Option (Option Nat)) ≠ some none := by
  exact ⟨rfl, by decide⟩

/-- Witness for C4 at the concrete list [10, 20, 30]. -/
theorem c4_reverse_amended_witness :
    WF wfDemo wfDemoChain ∧ wfDemoChain ≠ [] ∧
    ∃ s2 : SinglyLinkedList Nat,
      reverse_singly_linked_list (some wfDemo) = some (some s2) ∧
      print_singly_linked_list (some s2) = some ((wfDemoChain.map Prod.snd).reverse) ∧
      s2.head_node = (wfDemoChain.map Prod.fst).getLast? ∧
      s2.tail_node = wfDemo.tail_node :=
  ⟨wfDemo_wf, by decide, c4_reverse_amended wfDemo wfDemoChain wfDemo_wf (by decide)⟩

/-- Witness for C5: deleting the value 20 from the concrete list [10, 20, 30]. -/
theorem c5_delete_by_value_witness :
    WF wfDemo wfDemoChain ∧
    (delete_node_by_data (none : Option (SinglyLinkedList Nat)) (some 20) =
        some (none, 0, []) ∧
      ∃ s2 : SinglyLinkedList Nat,
        delete_node_by_data (some wfDemo) (some 20) =
          some (some s2,
            (wfDemoChain.filter
              (fun p => wfDemo.compare_data_function p.2 (some 20))).length,
            (wfDemoChain.filter
              (fun p => wfDemo.compare_data_function p.2 (some 20))).map Prod.snd) ∧
        print_singly_linked_list (some s2) =
          some ((wfDemoChain.filter
            (fun p => !wfDemo.compare_data_function p.2 (some 20))).map Prod.snd) ∧
        get_linked_list_length (some s2) =
          some (wfDemoChain.filter
            (fun p => !wfDemo.compare_data_function p.2 (some 20))).length ∧
        s2.tail_node =
          ((wfDemoChain.filter
            (fun p => !wfDemo.compare_data_function p.2 (some 20))).map
              Prod.fst).getLast?) :=
  ⟨wfDemo_wf, c5_delete_by_value wfDemo wfDemoChain (some 20) wfDemo_wf⟩

/-- Witness for C6 at the concrete list [10, 20, 30] with the equality
comparator (which rejects NULL against every stored value). -/
theorem c6_find_amended_witness :
    IsChain wfDemo.heap wfDemo.head_node wfDemoChain ∧
    HeapBounded wfDemo.heap wfDemo.next_alloc ∧
    ((wfDemo.head_node = none → ∀ w, find_node_by_data (some wfDemo) w = some none) ∧
     ((∀ p ∈ wfDemoChain, wfDemo.compare_data_function p.2 none = false) →
       find_node_by_data (some wfDemo) none = some none)) ∧
    find_node_by_data (some wfDemo) none = some none :=
  ⟨wfDemo_chain, wfDemo_bounded,
    c6_find_amended wfDemo wfDemoChain wfDemo_chain wfDemo_bounded,
    (c6_find_amended wfDemo wfDemoChain wfDemo_chain wfDemo_bounded).2 (by decide)⟩

/-- Witness for C7 at the concrete list [10, 20, 30]. -/
theorem c7_reverse_involution_witness :
    IsChain wfDemo.heap wfDemo.head_node wfDemoChain ∧
    HeapBounded wfDemo.heap wfDemo.next_alloc ∧ wfDemoChain ≠ [] ∧
    ∃ s1 s2 : SinglyLinkedList Nat,
      reverse_singly_linked_list (some wfDemo) = some (some s1) ∧
      reverse_singly_linked_list (some s1) = some (some s2) ∧
      print_singly_linked_list (some s2) = print_singly_linked_list (some wfDemo) ∧
      s2.head_node = wfDemo.head_node ∧
      s2.tail_node = wfDemo.tail_node :=
  ⟨wfDemo_chain, wfDemo_bounded, by decide,
    c7_reverse_involution wfDemo wfDemoChain wfDemo_chain wfDemo_bounded (by decide)⟩

/-- Witness for C8: the conditional conjunct applied to a concrete empty
list. -/
theorem c8_atomicity_witness :
    emptyDemo.head_node = none ∧
    reverse_singly_linked_list (some emptyDemo) = some (some emptyDemo) ∧
    insert_node_at_head true (some emptyDemo) none = some emptyDemo :=
  ⟨rfl, (c8_atomicity emptyDemo none true).2.2.2.2.2.2.2.2.2.2.2.2.1 rfl,
    (c8_atomicity emptyDemo none true).2.2.2.2.2.2.2.2.1⟩

/-- Witness for C9 at the concrete list [10, 20, 30]. -/
theorem c9_teardown_witness :
    IsChain wfDemo.heap wfDemo.head_node wfDemoChain ∧
    HeapBounded wfDemo.heap wfDemo.next_alloc ∧
    ∃ s2 : SinglyLinkedList Nat,
      free_singly_linked_list (some wfDemo) = some (some s2, wfDemoChain.map Prod.snd) ∧
      s2.head_node = none ∧ s2.tail_node = none ∧
      get_linked_list_length (some s2) = some 0 :=
  ⟨wfDemo_chain, wfDemo_bounded, c9_teardown wfDemo wfDemoChain wfDemo_chain wfDemo_bounded⟩

/-- Witness for C10: inserting 42 at the head of the concrete list
[10, 20, 30]. -/
theorem c10_insert_head_frame_witness :
    HeapBounded wfDemo.heap wfDemo.next_alloc ∧ wfDemo.head_node ≠ none ∧
    ∃ s2 : SinglyLinkedList Nat,
      insert_node_at_head true (some wfDemo) (some 42) = some s2 ∧
      s2.head_node = some wfDemo.next_alloc ∧
      s2.heap wfDemo.next_alloc =
        some { node_data := some 42, next_node := wfDemo.head_node } ∧
      s2.tail_node = wfDemo.tail_node ∧
      s2.next_alloc = wfDemo.next_alloc + 1 ∧
      s2.compare_data_function = wfDemo.compare_data_function ∧
      ∀ a n, wfDemo.heap a = some n → s2.heap a = some n :=
  ⟨wfDemo_bounded, by decide,
    c10_insert_head_frame wfDemo 42 wfDemo_bounded (by decide)⟩

/-- Claim C1: the tail invariant fails on the code.  After `construct` and two
`insert_at_tail` operations the list has 2 elements (walking from the head
visits value 1 then value 2), but `tail_node` still holds the address of the
FIRST node (address 0, which is also the head), whose `next_node` is address 1
— not NULL — so the tail reference does not point to the true last element:
`insert_node_at_tail` at `singly_linked_list.c:175` links the new node behind
the stale tail without advancing `tail_node`. -/
theorem c1_tail_invariant_failing_input :
    ∃ s : SinglyLinkedList Nat, tailDemo2 = some (some s) ∧
      get_linked_list_length (some s) = some 2 ∧
      print_singly_linked_list (some s) = some [some 1, some 2] ∧
      s.head_node = some 0 ∧
      s.tail_node = some 0 ∧
      s.heap 0 = some { node_data := some 1, next_node := some 1 } := by
  exact ⟨_, rfl, rfl, rfl, rfl, rfl, rfl⟩

/-- Claim C2: FIFO order fails on the code.  Tail-inserting 1, 2, 3 into a
fresh list and then walking from the head visits the values 1, 3 — not
1, 2, 3: the third insertion writes through the stale `tail_node` (still the
first node) and overwrites its `next_node`, orphaning the second node. -/
theorem c2_fifo_failing_input :
    Option.bind tailDemo3 print_singly_linked_list = some [some 1, some 3] ∧
    Option.bind tailDemo3 print_singly_linked_list ≠ some [some 1, some 2, some 3] := by
  refine ⟨rfl, ?_⟩
  decide

/-- Claim C3: length after N insertions fails on the code.  After N = 3
successful `insert_at_tail` operations on a fresh list, `get_linked_list_length`
returns 2, because the third insertion orphaned the second node.  The second
half of the claim — length of an empty list is 0 — does hold. -/
theorem c3_length_failing_input :
    Option.bind tailDemo3 get_linked_list_length = some 2 ∧
    (2 : Nat) ≠ 3 ∧
    get_linked_list_length
      (create_singly_linked_list true (some ()) (some ()) (some natEq)) = some 0 := by
  refine ⟨rfl, ?_, rfl⟩
  decide

end CLinkedList
